import Mathlib

/-!
# miniscript-go: a verification development

Shallow embedding of `utils/stack.go`, `utils/strings.go`, `utils/hex.go` and the
constants of `types.go`, followed by theorems about them. The bytecode compiler and the
resource limit checker, which `types.go` only prepares for, are modelled from the design
document and marked as such.

Conventions of the embedding.
* A Go `[]byte` and a Go `string` are both finite byte sequences: `List Byte` with
  `Byte = Fin 256`.
* A Go `rune` produced by ranging over a string is a code point, never negative: `Nat`.
* The strings of `types.go`, all of them literals or sequences of letters, are Lean
  strings.
* A Go method with a pointer receiver becomes a function that returns the new receiver
  next to the value returned.
* The zero value of a generic element type `T` is `default` of `Inhabited T`.
-/

namespace Miniscript

/-! ## types.go: constants -/

/-- Length of a pubkey inside P2WSH, which are 33 byte compressed pubkeys. -/
def pubKeyLen : Nat := 33

/-- Length of a pubkey data push in P2WSH (1 byte for the VarInt encoding of 33). -/
def pubKeyDataPushLen : Nat := 34

/-- The maximum size in bytes of a standard witnessScript. -/
def maxStandardP2WSHScriptSize : Nat := 3600

/-- Maximum number of non-push operations per script. -/
def maxOpsPerScript : Nat := 201

/-- Maximum number of keys in a multisig. -/
def multisigMaxKeys : Nat := 20

/-! ## types.go: basic types, properties and fragment identifiers

The strings of `types.go` are literals, or are built from letters by a `strings.Builder`:
they are embedded as Lean strings, `WriteRune` being `String.push`. -/

/-- The declaration `type basicType string`. -/
abbrev basicType := String

def typeB : basicType := "B"
def typeV : basicType := "V"
def typeK : basicType := "K"
def typeW : basicType := "W"

/-- The struct `properties`: nine type and malleability flags and `canCollapseVerify`. -/
structure properties where
  z : Bool
  o : Bool
  n : Bool
  d : Bool
  u : Bool
  m : Bool
  s : Bool
  f : Bool
  e : Bool
  canCollapseVerify : Bool
  deriving Repr, DecidableEq

/-- The method `String` of `properties`: a `strings.Builder` that receives, in this order,
the letter of each flag that is set. -/
def properties.String (p : properties) : String :=
  let b := ""
  let b := if p.z then b.push 'z' else b
  let b := if p.o then b.push 'o' else b
  let b := if p.n then b.push 'n' else b
  let b := if p.d then b.push 'd' else b
  let b := if p.u then b.push 'u' else b
  let b := if p.m then b.push 'm' else b
  let b := if p.s then b.push 's' else b
  let b := if p.f then b.push 'f' else b
  let b := if p.e then b.push 'e' else b
  b

/-- The nine flags of a `properties` value, in the order `z, o, n, d, u, m, s, f, e`. -/
def properties.flags (p : properties) : List Bool :=
  [p.z, p.o, p.n, p.d, p.u, p.m, p.s, p.f, p.e]

/-- The letters of `"zondumsfe"` whose flag, at the same position, is set. -/
def selectLetters : List Char → List Bool → List Char
  | c :: cs, b :: bs => if b then c :: selectLetters cs bs else selectLetters cs bs
  | _, _ => []

def f_0 : String := "0"
def f_1 : String := "1"
def f_pk_k : String := "pk_k"
def f_pk_h : String := "pk_h"
def f_pk : String := "pk"
def f_pkh : String := "pkh"
def f_sha256 : String := "sha256"
def f_ripemd160 : String := "ripemd160"
def f_hash256 : String := "hash256"
def f_hash160 : String := "hash160"
def f_older : String := "older"
def f_after : String := "after"
def f_andor : String := "andor"
def f_and_v : String := "and_v"
def f_and_b : String := "and_b"
def f_and_n : String := "and_n"
def f_or_b : String := "or_b"
def f_or_c : String := "or_c"
def f_or_d : String := "or_d"
def f_or_i : String := "or_i"
def f_thresh : String := "thresh"
def f_multi : String := "multi"
def f_wrap_a : String := "a"
def f_wrap_s : String := "s"
def f_wrap_c : String := "c"
def f_wrap_d : String := "d"
def f_wrap_v : String := "v"
def f_wrap_j : String := "j"
def f_wrap_n : String := "n"
def f_wrap_t : String := "t"
def f_wrap_l : String := "l"
def f_wrap_u : String := "u"

/-- The wrapper identifiers `f_wrap_a .. f_wrap_u`, in the order of their declaration. -/
def wrapperIdentifiers : List String :=
  [f_wrap_a, f_wrap_s, f_wrap_c, f_wrap_d, f_wrap_v, f_wrap_j, f_wrap_n, f_wrap_t,
    f_wrap_l, f_wrap_u]

/-- All fragment identifiers `f_0 .. f_wrap_u`, in the order of their declaration. -/
def fragmentIdentifiers : List String :=
  [f_0, f_1, f_pk_k, f_pk_h, f_pk, f_pkh, f_sha256, f_ripemd160, f_hash256, f_hash160,
    f_older, f_after, f_andor, f_and_v, f_and_b, f_and_n, f_or_b, f_or_c, f_or_d, f_or_i,
    f_thresh, f_multi] ++ wrapperIdentifiers

/-! ## utils/stack.go -/

/-- The generic stack: `type Stack[T any] struct { elements []T }`. -/
structure Stack (T : Type) where
  elements : List T
  deriving Repr, DecidableEq

namespace Stack

variable {T : Type}

/-- The zero value `Stack[T]{}`: the `elements` slice is nil. -/
def zeroValue : Stack T := ⟨[]⟩

/-- `Push`: `s.elements = append(s.elements, element)`. -/
def Push (s : Stack T) (element : T) : Stack T :=
  ⟨s.elements ++ [element]⟩

/-- `Pop`: the zero value and an untouched stack when `len(s.elements) == 0`; otherwise
the last element, and `s.elements[:len(s.elements)-1]` as the new slice. -/
def Pop [Inhabited T] (s : Stack T) : T × Stack T :=
  if s.elements.length = 0 then
    (default, s)
  else
    (s.elements.getD (s.elements.length - 1) default,
      ⟨s.elements.take (s.elements.length - 1)⟩)

/-- `Top`: the zero value when `len(s.elements) == 0`, otherwise the last element; the
body has no assignment to the receiver, so the stack returned is the receiver. -/
def Top [Inhabited T] (s : Stack T) : T × Stack T :=
  if s.elements.length = 0 then
    (default, s)
  else
    (s.elements.getD (s.elements.length - 1) default, s)

/-- `Size`: `len(s.elements)`, a Go `int`. -/
def Size (s : Stack T) : Int :=
  (s.elements.length : Int)

/-- The call sequence `s.Push(x1); ...; s.Push(xn)`. -/
def pushAll (s : Stack T) : List T → Stack T
  | [] => s
  | x :: xs => pushAll (s.Push x) xs

/-- The call sequence of `n` successive `s.Pop()`: the values returned, in the order of
the calls, and the stack left. -/
def popN [Inhabited T] : Nat → Stack T → List T × Stack T
  | 0, s => ([], s)
  | n + 1, s =>
    let r := s.Pop
    let rest := popN n r.2
    (r.1 :: rest.1, rest.2)

end Stack

/-! ## Go strings, and ranging over them

`for i, c := range s` visits the string rune by rune: `i` is the byte offset at which the
rune starts and `c` the decoded code point; a byte below `0x80` is its own rune, anything
else goes through the runtime's `decoderune`, which yields `U+FFFD` and advances by one
byte on an ill-formed sequence. `string(c)` is the UTF-8 encoding of `c` (`encoderune`). -/

/-- A byte. -/
abbrev Byte := Fin 256

/-- A Go `string` (or `[]byte`): a finite sequence of bytes, not necessarily valid UTF-8. -/
abbrev GoString := List Byte

/-- A Go `rune` as produced by ranging over a string: a code point. -/
abbrev Rune := Nat

/-- Conversion `byte(n)`: truncation to eight bits. -/
def toByte (n : Nat) : Byte := ⟨n % 256, Nat.mod_lt _ (by decide)⟩

/-- The slice expression `s[lo:hi]`. -/
def slice (s : GoString) (lo hi : Nat) : GoString := (s.take hi).drop lo

def runeError : Rune := 0xFFFD
def runeSelf : Nat := 0x80
def maxRune : Rune := 0x10FFFF
def surrogateMin : Rune := 0xD800
def surrogateMax : Rune := 0xDFFF
def tx : Nat := 0x80
def t2 : Nat := 0xC0
def t3 : Nat := 0xE0
def t4 : Nat := 0xF0
def t5 : Nat := 0xF8
def maskx : Nat := 0x3F
def mask2 : Nat := 0x1F
def mask3 : Nat := 0x0F
def mask4 : Nat := 0x07
def rune1Max : Rune := 0x7F
def rune2Max : Rune := 0x7FF
def rune3Max : Rune := 0xFFFF
def locb : Nat := 0x80
def hicb : Nat := 0xBF

/-- Continuation byte test `locb <= b && b <= hicb`. -/
def isContinuation (b : Byte) : Bool := decide (locb ≤ b.val) && decide (b.val ≤ hicb)

/-- The rune that starts the (non-empty) remainder `s[k:]` of a string and the number of
bytes the range loop advances by: the single-byte fast path of the loop, then the
runtime's `decoderune`. -/
def decoderune : GoString → Rune × Nat
  | [] => (runeError, 1)
  | b0 :: rest =>
    if b0.val < runeSelf then
      (b0.val, 1)
    else if t2 ≤ b0.val ∧ b0.val < t3 then
      match rest with
      | b1 :: _ =>
        if isContinuation b1 then
          let r := ((b0.val &&& mask2) <<< 6) ||| (b1.val &&& maskx)
          if rune1Max < r then (r, 2) else (runeError, 1)
        else (runeError, 1)
      | _ => (runeError, 1)
    else if t3 ≤ b0.val ∧ b0.val < t4 then
      match rest with
      | b1 :: b2 :: _ =>
        if isContinuation b1 && isContinuation b2 then
          let r := ((b0.val &&& mask3) <<< 12) ||| ((b1.val &&& maskx) <<< 6)
            ||| (b2.val &&& maskx)
          if rune2Max < r ∧ ¬ (surrogateMin ≤ r ∧ r ≤ surrogateMax) then (r, 3)
          else (runeError, 1)
        else (runeError, 1)
      | _ => (runeError, 1)
    else if t4 ≤ b0.val ∧ b0.val < t5 then
      match rest with
      | b1 :: b2 :: b3 :: _ =>
        if isContinuation b1 && isContinuation b2 && isContinuation b3 then
          let r := ((b0.val &&& mask4) <<< 18) ||| ((b1.val &&& maskx) <<< 12)
            ||| ((b2.val &&& maskx) <<< 6) ||| (b3.val &&& maskx)
          if rune3Max < r ∧ r ≤ maxRune then (r, 4) else (runeError, 1)
        else (runeError, 1)
      | _ => (runeError, 1)
    else (runeError, 1)

/-- The three-byte form of `encoderune`. -/
def encode3 (r : Rune) : GoString :=
  [toByte (t3 ||| (toByte (r >>> 12)).val), toByte (tx ||| ((toByte (r >>> 6)).val &&& maskx)),
    toByte (tx ||| ((toByte r).val &&& maskx))]

/-- The conversion `string(c)` of a rune: its UTF-8 encoding, with `U+FFFD` standing in
for a surrogate or a value above `maxRune`. -/
def encoderune (r : Rune) : GoString :=
  if r ≤ rune1Max then
    [toByte r]
  else if r ≤ rune2Max then
    [toByte (t2 ||| (toByte (r >>> 6)).val), toByte (tx ||| ((toByte r).val &&& maskx))]
  else if r > maxRune ∨ (surrogateMin ≤ r ∧ r ≤ surrogateMax) then
    encode3 runeError
  else if r ≤ rune3Max then
    encode3 r
  else
    [toByte (t4 ||| (toByte (r >>> 18)).val), toByte (tx ||| ((toByte (r >>> 12)).val &&& maskx)),
      toByte (tx ||| ((toByte (r >>> 6)).val &&& maskx)),
      toByte (tx ||| ((toByte r).val &&& maskx))]

/-- The runes of a string in the order a range loop visits them; `fuel` bounds the number
of iterations and `s.length` always suffices, each rune taking at least one byte. -/
def runesAux : Nat → GoString → List Rune
  | 0, _ => []
  | _, [] => []
  | fuel + 1, b :: bs =>
    let d := decoderune (b :: bs)
    d.1 :: runesAux fuel ((b :: bs).drop d.2)

/-- The characters of a string: the runes a range loop over it yields. -/
def runes (s : GoString) : List Rune := runesAux s.length s

/-! ## utils/strings.go -/

/-- The `for i, c := range s` loop of `SplitString`, from byte offset `i` on, carrying the
locals `start` and `substrs`; one unit of `fuel` per iteration. -/
def SplitString.loop (s : GoString) (isSeparator : Rune → Bool) :
    Nat → Nat → Nat → List GoString → Nat × List GoString
  | 0, _, start, substrs => (start, substrs)
  | fuel + 1, i, start, substrs =>
    if i < s.length then
      let d := decoderune (s.drop i)
      if isSeparator d.1 then
        let substrs1 := if start < i then substrs ++ [slice s start i] else substrs
        SplitString.loop s isSeparator fuel (i + d.2) (i + 1) (substrs1 ++ [encoderune d.1])
      else
        SplitString.loop s isSeparator fuel (i + d.2) start substrs
    else
      (start, substrs)

/-- `SplitString`: the loop over the whole string (`len(s)` iterations at most, every rune
taking at least one byte), then the remainder `s[start:]` when `start < len(s)`. -/
def SplitString (s : GoString) (isSeparator : Rune → Bool) : List GoString :=
  let r := SplitString.loop s isSeparator s.length 0 0 []
  if r.1 < s.length then r.2 ++ [slice s r.1 s.length] else r.2

/-- Concatenation of the pieces, in order. -/
def concatAll (pieces : List GoString) : GoString := pieces.foldr (· ++ ·) []

/-- A piece that is "the separator itself": the one-character string of a character of
`s` that satisfies `isSeparator`. -/
def IsSeparatorPiece (s : GoString) (isSeparator : Rune → Bool) (p : GoString) : Prop :=
  ∃ c ∈ runes s, isSeparator c = true ∧ p = encoderune c

/-- A piece that is a substring of `s` none of whose characters satisfies `isSeparator`. -/
def IsPlainPiece (s : GoString) (isSeparator : Rune → Bool) (p : GoString) : Prop :=
  p <:+: s ∧ ∀ c ∈ runes p, isSeparator c = false

/-- Every piece is non-empty and is a separator piece or a plain piece. -/
def Classified (s : GoString) (isSeparator : Rune → Bool) : Prop :=
  ∀ p ∈ SplitString s isSeparator,
    p ≠ [] ∧ (IsSeparatorPiece s isSeparator p ∨ IsPlainPiece s isSeparator p)

/-- `Aligned x y`: ranging over `x ++ y`, every rune that starts inside `x` ends inside `x`,
so that a rune starts at offset `len(x)` (or the string ends there). -/
inductive Aligned : GoString → GoString → Prop where
  | nil (y : GoString) : Aligned [] y
  | step (b : Byte) (x y : GoString)
      (hw : (decoderune (b :: (x ++ y))).2 ≤ (b :: x).length)
      (h : Aligned ((b :: x).drop (decoderune (b :: (x ++ y))).2) y) :
      Aligned (b :: x) y

/-- The string `a→b`: `a`, then U+2192 in its three bytes `E2 86 92`, then `b`. -/
def arrowString : GoString := [0x61, 0xE2, 0x86, 0x92, 0x62]

/-- The predicate "every rune but a lowercase ASCII letter separates". -/
def notLowercase (c : Rune) : Bool := !(decide (0x61 ≤ c) && decide (c ≤ 0x7A))

/-- The string `é`: U+00E9 in its two bytes `C3 A9`. -/
def eAcuteString : GoString := [0xC3, 0xA9]

/-- The predicate "U+00E9 separates". -/
def isEAcute (c : Rune) : Bool := c == 0xE9

/-! ## utils/hex.go

`EncodeHex` and `DecodeHex` are `hex.EncodeToString` and `hex.DecodeString` of the Go
standard library package `encoding/hex`, embedded here as that package defines them. -/

/-- The table `hextable = "0123456789abcdef"` of `encoding/hex`. -/
def hextable : List Byte :=
  [0x30, 0x31, 0x32, 0x33, 0x34, 0x35, 0x36, 0x37, 0x38, 0x39,
    0x61, 0x62, 0x63, 0x64, 0x65, 0x66]

/-- `hex.Encode`: for every source byte `v`, `hextable[v>>4]` then `hextable[v&0x0f]`. -/
def hexEncode : List Byte → List Byte
  | [] => []
  | v :: src =>
    hextable.getD (v.val >>> 4) 0 :: hextable.getD (v.val &&& 0x0f) 0 :: hexEncode src

/-- `EncodeHex(b) = hex.EncodeToString(b)`. -/
def EncodeHex (b : List Byte) : GoString := hexEncode b

/-- The errors of `encoding/hex`. -/
inductive HexError where
  | InvalidByteError (b : Byte)
  | ErrLength
  deriving Repr, DecidableEq

/-- `fromHexChar`: the value of a hexadecimal digit, `none` for any other byte. -/
def fromHexChar (c : Byte) : Option Nat :=
  if 0x30 ≤ c.val ∧ c.val ≤ 0x39 then some (c.val - 0x30)
  else if 0x61 ≤ c.val ∧ c.val ≤ 0x66 then some (c.val - 0x61 + 10)
  else if 0x41 ≤ c.val ∧ c.val ≤ 0x46 then some (c.val - 0x41 + 10)
  else none

/-- `hex.Decode`: the bytes decoded before the first error, and the error if any; pairs of
digits give `(a << 4) | b`, an invalid digit is reported before an odd length. -/
def hexDecode : List Byte → List Byte × Option HexError
  | [] => ([], none)
  | [p] =>
    match fromHexChar p with
    | none => ([], some (HexError.InvalidByteError p))
    | some _ => ([], some HexError.ErrLength)
  | p :: q :: src =>
    match fromHexChar p with
    | none => ([], some (HexError.InvalidByteError p))
    | some a =>
      match fromHexChar q with
      | none => ([], some (HexError.InvalidByteError q))
      | some b =>
        let r := hexDecode src
        (toByte ((a <<< 4) ||| b) :: r.1, r.2)

/-- `DecodeHex(s) = hex.DecodeString(s)`: the bytes and the error (`none` for `nil`). -/
def DecodeHex (s : GoString) : List Byte × Option HexError := hexDecode s

/-! ## Fragment tree, bytecode compiler and resource limits

`types.go` declares the fragment identifiers, the property record with its
`canCollapseVerify` field and the limit constants; the compiler and the limit checker
that use them are described by the design document only. -/

/-- A public key: 33 bytes, compressed. -/
abbrev Key := List Byte

/-- A hash value. -/
abbrev Hash := List Byte

/-- Modelled from the spec: the fragment tree of §3, which `types.go` only names through
its identifier constants `f_0 .. f_wrap_u`; one constructor per node variant. -/
inductive Fragment where
  | const0
  | const1
  | keyCheck (k : Key)
  | keyHashCheck (k : Key)
  | sha256Check (h : Hash)
  | ripemd160Check (h : Hash)
  | hash256Check (h : Hash)
  | hash160Check (h : Hash)
  | older (n : Nat)
  | after (n : Nat)
  | andOr (x y z : Fragment)
  | andV (x y : Fragment)
  | andB (x y : Fragment)
  | andN (x y : Fragment)
  | orB (x z : Fragment)
  | orC (x z : Fragment)
  | orD (x z : Fragment)
  | orI (x z : Fragment)
  | threshold (k : Nat) (xs : List Fragment)
  | multisig (k : Nat) (keys : List Key)
  | wrapA (x : Fragment)
  | wrapS (x : Fragment)
  | wrapC (x : Fragment)
  | wrapD (x : Fragment)
  | wrapV (x : Fragment)
  | wrapJ (x : Fragment)
  | wrapN (x : Fragment)
  | wrapT (x : Fragment)
  | wrapL (x : Fragment)
  | wrapU (x : Fragment)

/-- Modelled from the spec: the stack-machine operations that §4.3 and §8 name; the
opcode type itself is not in the sources. -/
inductive Op where
  | push (data : List Byte)
  | pushNum (n : Nat)
  | CHECKSIG
  | CHECKSIGVERIFY
  | CHECKMULTISIG
  | CHECKMULTISIGVERIFY
  | EQUAL
  | EQUALVERIFY
  | VERIFY
  | CHECKSEQUENCEVERIFY
  | SWAP
  | DUP
  | IF
  | ENDIF
  deriving Repr, DecidableEq

/-- Modelled from the spec: the VERIFY-suffixed form of an opcode, which §4.3 gives to
CHECKSIG, CHECKMULTISIG and EQUAL only. -/
def verifyForm : Op → Option Op
  | Op.CHECKSIG => some Op.CHECKSIGVERIFY
  | Op.CHECKMULTISIG => some Op.CHECKMULTISIGVERIFY
  | Op.EQUAL => some Op.EQUALVERIFY
  | _ => none

/-- Modelled from the spec: the flag `canCollapseVerify` of a node, "the node's final
opcode is one of the three that has a VERIFY variant" (§3; the field comment in
`types.go` says the same of the rightmost script byte), read off the node's script. -/
def canCollapseVerify (script : List Op) : Bool :=
  match script.getLast? with
  | some op => (verifyForm op).isSome
  | none => false

/-- Modelled from the spec: the `v` wrapper of §4.3 over the script of its child; with
`canCollapseVerify` the child's last opcode is replaced by its VERIFY-suffixed form,
otherwise a separate VERIFY is appended. -/
def compileVerify (script : List Op) : List Op :=
  if canCollapseVerify script then
    match script.getLast? >>= verifyForm with
    | some op => script.dropLast ++ [op]
    | none => script ++ [Op.VERIFY]
  else
    script ++ [Op.VERIFY]

/-- Modelled from the spec: the bytecode compiler `compile` of §4.3, which is not in the
sources. The templates are those §4.3 writes out (`key-check`, `older`, `and_v`, `s:`,
`d:`, `v:`); a variant whose template §4.3 does not give compiles to `none`. -/
def compile : Fragment → Option (List Op)
  | Fragment.keyCheck k => some [Op.push k, Op.CHECKSIG]
  | Fragment.older n => some [Op.pushNum n, Op.CHECKSEQUENCEVERIFY]
  | Fragment.andV x y =>
    match compile x, compile y with
    | some cx, some cy => some (cx ++ cy)
    | _, _ => none
  | Fragment.wrapS x =>
    match compile x with
    | some cx => some (Op.SWAP :: cx)
    | none => none
  | Fragment.wrapD x =>
    match compile x with
    | some cx => some ([Op.DUP, Op.IF] ++ cx ++ [Op.ENDIF])
    | none => none
  | Fragment.wrapV x =>
    match compile x with
    | some cx => some (compileVerify cx)
    | none => none
  | _ => none

/-- Modelled from the spec: the rejections of the resource limit checker (§4.4, §7). -/
inductive LimitError where
  | ScriptTooLarge
  | TooManyOperations
  | TooManyMultisigKeys
  deriving Repr, DecidableEq

mutual
/-- Modelled from the spec: "any multisig node's key count exceeds 20" (§4.4), over the
whole tree, against the constant `multisigMaxKeys` of `types.go`. -/
def exceedsMultisigKeys : Fragment → Bool
  | Fragment.multisig _ keys => decide (multisigMaxKeys < keys.length)
  | Fragment.andOr x y z =>
    exceedsMultisigKeys x || exceedsMultisigKeys y || exceedsMultisigKeys z
  | Fragment.andV x y => exceedsMultisigKeys x || exceedsMultisigKeys y
  | Fragment.andB x y => exceedsMultisigKeys x || exceedsMultisigKeys y
  | Fragment.andN x y => exceedsMultisigKeys x || exceedsMultisigKeys y
  | Fragment.orB x z => exceedsMultisigKeys x || exceedsMultisigKeys z
  | Fragment.orC x z => exceedsMultisigKeys x || exceedsMultisigKeys z
  | Fragment.orD x z => exceedsMultisigKeys x || exceedsMultisigKeys z
  | Fragment.orI x z => exceedsMultisigKeys x || exceedsMultisigKeys z
  | Fragment.threshold _ xs => exceedsMultisigKeysList xs
  | Fragment.wrapA x => exceedsMultisigKeys x
  | Fragment.wrapS x => exceedsMultisigKeys x
  | Fragment.wrapC x => exceedsMultisigKeys x
  | Fragment.wrapD x => exceedsMultisigKeys x
  | Fragment.wrapV x => exceedsMultisigKeys x
  | Fragment.wrapJ x => exceedsMultisigKeys x
  | Fragment.wrapN x => exceedsMultisigKeys x
  | Fragment.wrapT x => exceedsMultisigKeys x
  | Fragment.wrapL x => exceedsMultisigKeys x
  | Fragment.wrapU x => exceedsMultisigKeys x
  | _ => false
/-- Modelled from the spec: the same test over the children of a threshold. -/
def exceedsMultisigKeysList : List Fragment → Bool
  | [] => false
  | x :: xs => exceedsMultisigKeys x || exceedsMultisigKeysList xs
end

/-- Modelled from the spec: the multisig gate of the resource limit checker (§4.4), one of
its three independent checks: "reject with `TooManyMultisigKeys` if any multisig node's key
count exceeds 20". -/
def checkMultisigKeys (f : Fragment) : Except LimitError Unit :=
  if exceedsMultisigKeys f then Except.error LimitError.TooManyMultisigKeys
  else Except.ok ()

end Miniscript

namespace Miniscript

/-! ## Theorems: utils/stack.go -/

theorem Stack.pushAll_elements {T : Type} (s : Stack T) (xs : List T) :
    (s.pushAll xs).elements = s.elements ++ xs := by
  induction xs generalizing s with
  | nil => simp [Stack.pushAll]
  | cons x xs ih => simp [Stack.pushAll, ih, Stack.Push]

theorem Stack.Pop_append_singleton {T : Type} [Inhabited T] (l : List T) (x : T) :
    Stack.Pop ⟨l ++ [x]⟩ = (x, ⟨l⟩) := by
  simp [Stack.Pop, List.getD_eq_getElem?_getD]

theorem Stack.popN_append_reverse {T : Type} [Inhabited T] (l xs : List T) :
    Stack.popN xs.length ⟨l ++ xs⟩ = (xs.reverse, ⟨l⟩) := by
  induction xs using List.reverseRecOn with
  | nil => simp [Stack.popN]
  | append_singleton ys y ih =>
    have h : l ++ (ys ++ [y]) = (l ++ ys) ++ [y] := by simp
    simp only [List.length_append, List.length_singleton, Stack.popN, h,
      Stack.Pop_append_singleton, ih]
    simp

/-- C1: pushing `x1, ..., xn` and then popping `n` times returns `xn, ..., x1` in that
order and leaves the stack exactly as it was before the pushes. -/
theorem Stack.lifo {T : Type} [Inhabited T] (s : Stack T) (xs : List T) :
    Stack.popN xs.length (s.pushAll xs) = (xs.reverse, s) := by
  have h : s.pushAll xs = ⟨s.elements ++ xs⟩ := by
    cases h' : s.pushAll xs with
    | mk e =>
      have := Stack.pushAll_elements s xs
      rw [h'] at this
      simp at this
      simp [this]
  rw [h, Stack.popN_append_reverse]

/-- C2: on a non-empty stack `Top` returns what `Pop` would return next, which is the
last element of the stack (after `Push(x)` it is `x`); and `Top` leaves the elements and
`Size` of any stack, empty or not, unchanged. -/
theorem Stack.Top_peek {T : Type} [Inhabited T] (s : Stack T) (x : T) :
    (s.elements ≠ [] → s.Top.1 = s.Pop.1 ∧ s.elements.getLast? = some s.Top.1) ∧
    (s.Push x).Top.1 = x ∧
    s.Top.2.elements = s.elements ∧ s.Top.2.Size = s.Size := by
  refine ⟨?_, ?_, ?_, ?_⟩
  · intro hne
    have hlen : s.elements.length ≠ 0 := by
      intro h
      exact hne (List.length_eq_zero.mp h)
    refine ⟨by simp [Stack.Top, Stack.Pop, hlen], ?_⟩
    obtain ⟨l, y, hl⟩ : ∃ l y, s.elements = l ++ [y] :=
      ⟨s.elements.dropLast, s.elements.getLast hne, (List.dropLast_append_getLast hne).symm⟩
    simp [Stack.Top, hl, List.getD_eq_getElem?_getD]
  · simp [Stack.Top, Stack.Push, List.getD_eq_getElem?_getD]
  · unfold Stack.Top
    split <;> rfl
  · unfold Stack.Top
    split <;> rfl

/-- Witness for C2 on the stack holding 1, 2, 3 (3 on top). -/
theorem Stack.Top_peek_witness :
    (⟨[1, 2, 3]⟩ : Stack Nat).elements ≠ [] ∧
    (⟨[1, 2, 3]⟩ : Stack Nat).Top.1 = (⟨[1, 2, 3]⟩ : Stack Nat).Pop.1 ∧
    (⟨[1, 2, 3]⟩ : Stack Nat).elements.getLast? = some (⟨[1, 2, 3]⟩ : Stack Nat).Top.1 :=
  ⟨by decide, (Stack.Top_peek (⟨[1, 2, 3]⟩ : Stack Nat) 4).1 (by decide)⟩

/-- C3: `Size` is 0 for the zero-value stack, grows by one with `Push`, and shrinks by one
with `Pop` on a non-empty stack. -/
theorem Stack.Size_counts {T : Type} [Inhabited T] (s : Stack T) (x : T) :
    (Stack.zeroValue : Stack T).Size = 0 ∧
    (s.Push x).Size = s.Size + 1 ∧
    (s.elements ≠ [] → s.Pop.2.Size = s.Size - 1) := by
  refine ⟨rfl, by simp [Stack.Size, Stack.Push], ?_⟩
  intro hne
  have hlen : s.elements.length ≠ 0 := by
    intro h
    exact hne (List.length_eq_zero.mp h)
  have hpos : 1 ≤ s.elements.length := Nat.one_le_iff_ne_zero.mpr hlen
  simp only [Stack.Pop, hlen, if_false, Stack.Size, List.length_take]
  rw [Nat.min_eq_left (Nat.sub_le _ _)]
  omega

/-- Witness for C3 on the stack holding 1, 2, 3. -/
theorem Stack.Size_counts_witness :
    (⟨[1, 2, 3]⟩ : Stack Nat).elements ≠ [] ∧
    (⟨[1, 2, 3]⟩ : Stack Nat).Pop.2.Size = (⟨[1, 2, 3]⟩ : Stack Nat).Size - 1 :=
  ⟨by decide, (Stack.Size_counts (⟨[1, 2, 3]⟩ : Stack Nat) 4).2.2 (by decide)⟩

/-! ## Theorems: types.go -/

/-- C4: the resource limit constants are 3600 (script size in bytes), 201 (non-push
operations) and 20 (keys in a multisig). -/
theorem limit_constants :
    maxStandardP2WSHScriptSize = 3600 ∧ maxOpsPerScript = 201 ∧ multisigMaxKeys = 20 :=
  ⟨rfl, rfl, rfl⟩

/-- C5: a public key is 33 bytes and its data push is one length byte longer, 34. -/
theorem pubKey_lengths :
    pubKeyLen = 33 ∧ pubKeyDataPushLen = 1 + pubKeyLen ∧ pubKeyDataPushLen = 34 :=
  ⟨rfl, rfl, rfl⟩

/-! ## Theorems: utils/strings.go -/

theorem decoderune_cons_lt (b : Byte) (bs : GoString) (h : b.val < runeSelf) :
    decoderune (b :: bs) = (b.val, 1) := by
  simp [decoderune, h]

theorem decoderune_cons_ge (b : Byte) (bs : GoString) (h : ¬ b.val < runeSelf) :
    0x80 ≤ (decoderune (b :: bs)).1 ∧ 1 ≤ (decoderune (b :: bs)).2 := by
  simp only [decoderune, h, if_false]
  repeat' split
  all_goals dsimp only
  all_goals first
    | exact ⟨by decide, by decide⟩
    | (rename_i hr; exact ⟨hr, by decide⟩)
    | (rename_i hr; exact ⟨Nat.le_trans (by decide) (Nat.le_of_lt hr.1), by decide⟩)

theorem decoderune_width_pos (bs : GoString) : 1 ≤ (decoderune bs).2 := by
  cases bs with
  | nil => simp [decoderune]
  | cons b bs =>
    by_cases h : b.val < runeSelf
    · simp [decoderune_cons_lt b bs h]
    · exact (decoderune_cons_ge b bs h).2

/-- The range loop of `SplitString` ends within `len(s) - i` iterations: fuel beyond that
is never used. -/
theorem SplitString.loop_fuel_enough (s : GoString) (isSeparator : Rune → Bool)
    (fuel extra i start : Nat) (substrs : List GoString) (h : s.length ≤ i + fuel) :
    SplitString.loop s isSeparator (fuel + extra) i start substrs
      = SplitString.loop s isSeparator fuel i start substrs := by
  induction fuel generalizing i start substrs with
  | zero =>
    have hi : ¬ i < s.length := by omega
    cases extra with
    | zero => rfl
    | succ e => simp [SplitString.loop, hi]
  | succ n ih =>
    have hw := decoderune_width_pos (s.drop i)
    rw [Nat.add_right_comm]
    simp only [SplitString.loop]
    split
    · split
      · exact ih _ _ _ (by omega)
      · exact ih _ _ _ (by omega)
    · rfl

theorem concatAll_append_singleton (l : List GoString) (p : GoString) :
    concatAll (l ++ [p]) = concatAll l ++ p := by
  induction l with
  | nil => simp [concatAll]
  | cons x xs ih =>
    simp only [concatAll, List.cons_append, List.foldr_cons, List.append_assoc] at ih ⊢
    rw [ih]

theorem take_append_slice (s : GoString) (lo hi : Nat) (h : lo ≤ hi) :
    s.take lo ++ slice s lo hi = s.take hi := by
  unfold slice
  have : s.take lo = (s.take hi).take lo := by
    rw [List.take_take, Nat.min_eq_left h]
  rw [this, List.take_append_drop]

/-- A rune below `0x80` comes from a single byte, and `string(c)` is that byte. -/
theorem decoderune_ascii (b : Byte) (bs : GoString) (h : (decoderune (b :: bs)).1 < 0x80) :
    (decoderune (b :: bs)).2 = 1 ∧ encoderune (decoderune (b :: bs)).1 = [b] := by
  have hb : toByte b.val = b := by
    apply Fin.ext
    simp [toByte, Nat.mod_eq_of_lt b.isLt]
  by_cases h0 : b.val < runeSelf
  · rw [decoderune_cons_lt b bs h0]
    refine ⟨rfl, ?_⟩
    have : b.val ≤ rune1Max := by
      simp only [runeSelf] at h0
      simp only [rune1Max]
      omega
    simp [encoderune, this, hb]
  · exact absurd h (Nat.not_lt.mpr (decoderune_cons_ge b bs h0).1)

theorem take_succ_of_drop (s : GoString) (i : Nat) (b : Byte) (rest : GoString)
    (h : s.drop i = b :: rest) : s.take (i + 1) = s.take i ++ [b] := by
  have hi : i < s.length := by
    by_contra hc
    rw [List.drop_of_length_le (by omega)] at h
    cases h
  rw [List.take_succ, List.getElem?_eq_getElem hi]
  have : s[i] = b := by
    have h2 := List.drop_eq_getElem_cons hi
    rw [h] at h2
    exact (List.cons.inj h2).1.symm
  simp [this]

/-- Loop invariant of `SplitString` when only single-byte runes separate: the pieces
collected so far concatenate to `s[:start]`. -/
theorem SplitString.loop_concat (s : GoString) (isSeparator : Rune → Bool)
    (hsep : ∀ c, isSeparator c = true → c < 0x80)
    (fuel i start : Nat) (substrs : List GoString)
    (hle : start ≤ i) (hinv : concatAll substrs = s.take start) :
    concatAll (SplitString.loop s isSeparator fuel i start substrs).2
      = s.take (SplitString.loop s isSeparator fuel i start substrs).1 := by
  induction fuel generalizing i start substrs with
  | zero => simpa [SplitString.loop] using hinv
  | succ n ih =>
    simp only [SplitString.loop]
    split
    · rename_i hi
      split
      · rename_i hc
        obtain ⟨b, rest, hd⟩ : ∃ b rest, s.drop i = b :: rest := by
          cases hd : s.drop i with
          | nil =>
            have := List.drop_eq_nil_iff.mp hd
            omega
          | cons b rest => exact ⟨b, rest, rfl⟩
        have hlt := hsep _ hc
        rw [hd] at hlt ⊢
        obtain ⟨hw, he⟩ := decoderune_ascii b rest hlt
        rw [hw, he]
        apply ih
        · exact Nat.le_refl _
        · rw [concatAll_append_singleton, take_succ_of_drop s i b rest hd]
          congr 1
          split
          · rw [concatAll_append_singleton, hinv, take_append_slice s start i hle]
          · have : start = i := by omega
            rw [hinv, this]
      · exact ih _ _ _ (by have := decoderune_width_pos (s.drop i); omega) hinv
    · exact hinv

/-- When only single-byte (ASCII) runes satisfy `isSeparator`, the pieces of
`SplitString(s, isSeparator)` concatenate to `s`. -/
theorem SplitString.concat_of_ascii_separators (s : GoString) (isSeparator : Rune → Bool)
    (hsep : ∀ c, isSeparator c = true → c < 0x80) :
    concatAll (SplitString s isSeparator) = s := by
  have h := SplitString.loop_concat s isSeparator hsep s.length 0 0 [] (Nat.le_refl _)
    (by simp [concatAll])
  unfold SplitString
  simp only
  split
  · rename_i hlt
    rw [concatAll_append_singleton, h, take_append_slice s _ _ (Nat.le_of_lt hlt)]
    simp
  · rename_i hge
    rw [h, List.take_of_length_le (by omega)]

theorem decoderune_width_le (b : Byte) (bs : GoString) :
    (decoderune (b :: bs)).2 ≤ (b :: bs).length := by
  by_cases h : b.val < runeSelf
  · simp [decoderune_cons_lt b bs h]
  · simp only [decoderune, h, if_false]
    repeat' split
    all_goals simp

theorem decoderune_prefix (b : Byte) (x y : GoString)
    (h : (decoderune (b :: (x ++ y))).2 ≤ (b :: x).length) :
    decoderune (b :: x) = decoderune (b :: (x ++ y)) := by
  by_cases h0 : b.val < runeSelf
  · rw [decoderune_cons_lt b _ h0, decoderune_cons_lt b _ h0]
  · rcases x with _ | ⟨b1, _ | ⟨b2, _ | ⟨b3, x⟩⟩⟩
    · rcases y with _ | ⟨c1, _ | ⟨c2, _ | ⟨c3, y⟩⟩⟩ <;>
        simp only [List.cons_append, List.nil_append, List.append_nil, decoderune, h0,
          if_false, List.length_cons, List.length_nil] at h ⊢ <;>
        split_ifs at h ⊢ <;> first | rfl | (simp at h)
    · rcases y with _ | ⟨c1, _ | ⟨c2, y⟩⟩ <;>
        simp only [List.cons_append, List.nil_append, List.append_nil, decoderune, h0,
          if_false, List.length_cons, List.length_nil] at h ⊢ <;>
        split_ifs at h ⊢ <;> first | rfl | (simp at h)
    · rcases y with _ | ⟨c1, y⟩
      all_goals simp only [List.cons_append, List.nil_append, List.append_nil, decoderune,
        h0, if_false, List.length_cons, List.length_nil] at h ⊢
      all_goals split_ifs at h ⊢
      all_goals first | rfl | (simp at h)
    · simp only [List.cons_append, decoderune]

theorem runesAux_fuel_enough (fuel extra : Nat) (s : GoString) (h : s.length ≤ fuel) :
    runesAux (fuel + extra) s = runesAux fuel s := by
  induction fuel generalizing s with
  | zero =>
    have : s = [] := List.length_eq_zero.mp (Nat.le_zero.mp h)
    subst this
    cases extra <;> rfl
  | succ n ih =>
    cases s with
    | nil => rw [Nat.add_right_comm]; rfl
    | cons b bs =>
      rw [Nat.add_right_comm]
      simp only [runesAux]
      congr 1
      apply ih
      have hw := decoderune_width_pos (b :: bs)
      simp only [List.length_drop, List.length_cons] at h ⊢
      omega

theorem runes_nil : runes [] = [] := rfl

theorem runes_cons (b : Byte) (bs : GoString) :
    runes (b :: bs) = (decoderune (b :: bs)).1
      :: runes ((b :: bs).drop (decoderune (b :: bs)).2) := by
  have hw := decoderune_width_pos (b :: bs)
  have hlen : ((b :: bs).drop (decoderune (b :: bs)).2).length ≤ bs.length := by
    simp only [List.length_drop, List.length_cons]
    omega
  obtain ⟨k, hk⟩ := Nat.exists_eq_add_of_le hlen
  simp only [runes, List.length_cons, runesAux]
  congr 1
  rw [hk, runesAux_fuel_enough]
  exact Nat.le_refl _

theorem Aligned.runes_append {x y : GoString} (h : Aligned x y) :
    runes (x ++ y) = runes x ++ runes y := by
  induction h with
  | nil y => simp [runes_nil]
  | step b x y hw _ ih =>
    have hp := decoderune_prefix b x y hw
    have hd : (b :: (x ++ y)).drop (decoderune (b :: (x ++ y))).2
        = (b :: x).drop (decoderune (b :: (x ++ y))).2 ++ y :=
      List.drop_append_of_le_length hw
    rw [List.cons_append, runes_cons b (x ++ y), runes_cons b x, hp, List.cons_append, hd, ih]

theorem Aligned.extend {x y z : GoString} (h : Aligned x (y ++ z)) (hy : y ≠ [])
    (hw : (decoderune (y ++ z)).2 = y.length) : Aligned (x ++ y) z := by
  generalize hyz : y ++ z = t at h
  induction h with
  | nil t =>
    subst hyz
    cases y with
    | nil => exact absurd rfl hy
    | cons b y =>
      rw [List.nil_append]
      rw [List.cons_append] at hw
      refine Aligned.step b y z (Nat.le_of_eq hw) ?_
      rw [hw, List.drop_length]
      exact Aligned.nil z
  | step b x t hw' _ ih =>
    subst hyz
    rw [List.cons_append]
    have e : b :: (x ++ y ++ z) = b :: (x ++ (y ++ z)) := by rw [List.append_assoc]
    refine Aligned.step b (x ++ y) z ?_ ?_
    · rw [e]
      simp only [List.length_cons, List.length_append] at hw' ⊢
      omega
    · have hd : (b :: (x ++ y)).drop (decoderune (b :: (x ++ (y ++ z)))).2
          = (b :: x).drop (decoderune (b :: (x ++ (y ++ z)))).2 ++ y :=
        List.drop_append_of_le_length hw'
      rw [e, hd]
      exact ih rfl

theorem slice_length (s : GoString) (lo hi : Nat) (h : hi ≤ s.length) :
    (slice s lo hi).length = hi - lo := by
  simp [slice, List.length_drop, List.length_take, Nat.min_eq_left h]

theorem slice_substring (s : GoString) (lo hi : Nat) (h : lo ≤ hi) : slice s lo hi <:+: s := by
  refine ⟨s.take lo, s.drop hi, ?_⟩
  rw [take_append_slice s lo hi h, List.take_append_drop]

theorem slice_self (s : GoString) (i : Nat) : slice s i i = [] := by
  simp [slice, List.drop_eq_nil_iff, List.length_take]

theorem slice_append_slice (s : GoString) (lo i hi : Nat) (h1 : lo ≤ i) (h2 : i ≤ hi)
    (h3 : i ≤ s.length) : slice s lo hi = slice s lo i ++ slice s i hi := by
  have hlen : lo ≤ (s.take i).length := by
    rw [List.length_take, Nat.min_eq_left h3]
    exact h1
  have e : s.take hi = s.take i ++ slice s i hi := (take_append_slice s i hi h2).symm
  show (s.take hi).drop lo = (s.take i).drop lo ++ slice s i hi
  rw [e, List.drop_append_of_le_length hlen]

theorem drop_eq_slice_append (s : GoString) (i hi : Nat) (h : i ≤ hi) :
    s.drop i = slice s i hi ++ s.drop hi := by
  have e : s.drop hi = (s.drop i).drop (hi - i) := by
    rw [List.drop_drop]
    congr 1
    omega
  unfold slice
  rw [List.drop_take, e, List.take_append_drop]

/-- Facts about the rune that the range loop decodes at a rune boundary `i < len(s)`. -/
theorem rune_at_boundary (s : GoString) (i : Nat) (hi : i < s.length)
    (hA : Aligned (s.take i) (s.drop i)) :
    1 ≤ (decoderune (s.drop i)).2 ∧ i + (decoderune (s.drop i)).2 ≤ s.length ∧
    (decoderune (s.drop i)).1 ∈ runes s ∧
    runes (s.drop i)
      = (decoderune (s.drop i)).1 :: runes (s.drop (i + (decoderune (s.drop i)).2)) ∧
    (∀ x, Aligned x (s.drop i) →
      Aligned (x ++ slice s i (i + (decoderune (s.drop i)).2))
        (s.drop (i + (decoderune (s.drop i)).2))) := by
  obtain ⟨b, rest, hd⟩ : ∃ b rest, s.drop i = b :: rest := by
    cases hd : s.drop i with
    | nil =>
      have := List.drop_eq_nil_iff.mp hd
      omega
    | cons b rest => exact ⟨b, rest, rfl⟩
  have hpos := decoderune_width_pos (s.drop i)
  have hwle : (decoderune (s.drop i)).2 ≤ (s.drop i).length := by
    rw [hd]
    exact decoderune_width_le b rest
  have hbound : i + (decoderune (s.drop i)).2 ≤ s.length := by
    rw [List.length_drop] at hwle
    omega
  have hrunes : runes (s.drop i)
      = (decoderune (s.drop i)).1 :: runes (s.drop (i + (decoderune (s.drop i)).2)) := by
    have h1 := runes_cons b rest
    rw [← hd, List.drop_drop] at h1
    exact h1
  refine ⟨hpos, hbound, ?_, hrunes, ?_⟩
  · have h1 := hA.runes_append
    rw [List.take_append_drop, hrunes] at h1
    rw [h1]
    simp
  · intro x hx
    have hsplit := drop_eq_slice_append s i (i + (decoderune (s.drop i)).2)
      (Nat.le_add_right _ _)
    have hlen := slice_length s i (i + (decoderune (s.drop i)).2) hbound
    rw [Nat.add_sub_cancel_left] at hlen
    have hne : slice s i (i + (decoderune (s.drop i)).2) ≠ [] := by
      intro h0
      rw [h0] at hlen
      simp at hlen
      omega
    apply Aligned.extend
    · rw [← hsplit]
      exact hx
    · exact hne
    · rw [← hsplit, hlen]

theorem runes_snoc_of_aligned (x y z : GoString) (c : Rune)
    (h1 : Aligned x (y ++ z)) (h2 : Aligned (x ++ y) z) (h3 : runes (y ++ z) = c :: runes z) :
    runes (x ++ y) = runes x ++ [c] := by
  have e1 := h1.runes_append
  have e2 := h2.runes_append
  rw [List.append_assoc, e1, h3] at e2
  have e3 : (runes x ++ [c]) ++ runes z = runes (x ++ y) ++ runes z := by
    rw [← e2]
    simp
  exact (List.append_cancel_right e3).symm

/-- Loop invariant of `SplitString` when only single-byte runes separate: `i` and `start`
are rune boundaries, no rune of `s[start:i]` separates, and every piece collected so far
is classified. -/
theorem SplitString.loop_classified (s : GoString) (isSeparator : Rune → Bool)
    (hsep : ∀ c, isSeparator c = true → c < 0x80)
    (fuel i start : Nat) (substrs : List GoString)
    (hfuel : s.length ≤ i + fuel) (hle : start ≤ i) (hi : i ≤ s.length)
    (hA1 : Aligned (s.take i) (s.drop i))
    (hA2 : Aligned (slice s start i) (s.drop i))
    (hns : ∀ c ∈ runes (slice s start i), isSeparator c = false)
    (hacc : ∀ p ∈ substrs,
      p ≠ [] ∧ (IsSeparatorPiece s isSeparator p ∨ IsPlainPiece s isSeparator p)) :
    (∀ c ∈ runes (slice s (SplitString.loop s isSeparator fuel i start substrs).1 s.length),
      isSeparator c = false) ∧
    (∀ p ∈ (SplitString.loop s isSeparator fuel i start substrs).2,
      p ≠ [] ∧ (IsSeparatorPiece s isSeparator p ∨ IsPlainPiece s isSeparator p)) := by
  induction fuel generalizing i start substrs with
  | zero =>
    have : i = s.length := by omega
    subst this
    exact ⟨hns, hacc⟩
  | succ n ih =>
    simp only [SplitString.loop]
    split
    · rename_i hlt
      obtain ⟨hpos, hbound, hmem, hrunes, hext⟩ := rune_at_boundary s i hlt hA1
      have hA1' := hext _ hA1
      rw [take_append_slice s i _ (Nat.le_add_right _ _)] at hA1'
      split
      · rename_i hc
        obtain ⟨b, rest, hd⟩ : ∃ b rest, s.drop i = b :: rest := by
          cases hd : s.drop i with
          | nil =>
            have := List.drop_eq_nil_iff.mp hd
            omega
          | cons b rest => exact ⟨b, rest, rfl⟩
        have hlt80 := hsep _ hc
        have hasc : (decoderune (s.drop i)).2 = 1
            ∧ encoderune (decoderune (s.drop i)).1 = [b] := by
          rw [hd] at hlt80 ⊢
          exact decoderune_ascii b rest hlt80
        rw [hasc.1] at hA1' ⊢
        apply ih
        · omega
        · exact Nat.le_refl _
        · omega
        · exact hA1'
        · rw [slice_self]
          exact Aligned.nil _
        · rw [slice_self, runes_nil]
          intro c hc'
          cases hc'
        · intro p hp
          rw [List.mem_append, List.mem_singleton] at hp
          rcases hp with hp | hp
          · split at hp
            · rw [List.mem_append, List.mem_singleton] at hp
              rcases hp with hp | hp
              · exact hacc p hp
              · rename_i hsi
                subst hp
                refine ⟨?_, Or.inr ⟨slice_substring s start i hle, hns⟩⟩
                intro h0
                have hl := slice_length s start i hi
                rw [h0] at hl
                simp at hl
                omega
            · exact hacc p hp
          · subst hp
            refine ⟨?_, Or.inl ⟨_, hmem, hc, rfl⟩⟩
            rw [hasc.2]
            simp
      · rename_i hc
        have hc' : isSeparator (decoderune (s.drop i)).1 = false := by
          simpa using hc
        have hA2' := hext _ hA2
        have hsl := slice_append_slice s start i (i + (decoderune (s.drop i)).2) hle
          (Nat.le_add_right _ _) hi
        rw [← hsl] at hA2'
        apply ih
        · omega
        · omega
        · exact hbound
        · exact hA1'
        · exact hA2'
        · have hsplit := drop_eq_slice_append s i (i + (decoderune (s.drop i)).2)
            (Nat.le_add_right _ _)
          have hsn := runes_snoc_of_aligned (slice s start i)
            (slice s i (i + (decoderune (s.drop i)).2))
            (s.drop (i + (decoderune (s.drop i)).2)) (decoderune (s.drop i)).1
            (by rw [← hsplit]; exact hA2) (by rw [← hsl]; exact hA2')
            (by rw [← hsplit]; exact hrunes)
          rw [hsl, hsn]
          intro c hcm
          rw [List.mem_append, List.mem_singleton] at hcm
          rcases hcm with hcm | hcm
          · exact hns c hcm
          · rw [hcm]
            exact hc'
        · exact hacc
    · rename_i hge
      have : i = s.length := by omega
      subst this
      exact ⟨hns, hacc⟩

/-- When only single-byte (ASCII) runes satisfy `isSeparator`, every piece of
`SplitString(s, isSeparator)` is non-empty and is either the string of a separator of `s`
or a substring of `s` free of separators. -/
theorem SplitString.classified_of_ascii_separators (s : GoString)
    (isSeparator : Rune → Bool) (hsep : ∀ c, isSeparator c = true → c < 0x80) :
    Classified s isSeparator := by
  have h := SplitString.loop_classified s isSeparator hsep s.length 0 0 []
    (by omega) (Nat.le_refl _) (Nat.zero_le _)
    (by rw [List.take_zero]; exact Aligned.nil _)
    (by rw [slice_self]; exact Aligned.nil _)
    (by rw [slice_self, runes_nil]; intro c hc; cases hc)
    (by intro p hp; cases hp)
  obtain ⟨h1, h2⟩ := h
  intro p hp
  unfold SplitString at hp
  simp only at hp
  split at hp
  · rename_i hlt
    rw [List.mem_append, List.mem_singleton] at hp
    rcases hp with hp | hp
    · exact h2 p hp
    · subst hp
      refine ⟨?_, Or.inr ⟨slice_substring s _ _ (Nat.le_of_lt hlt), h1⟩⟩
      intro h0
      have hl := slice_length s (SplitString.loop s isSeparator s.length 0 0 []).1
        s.length (Nat.le_refl _)
      rw [h0] at hl
      simp at hl
      omega
  · exact h2 p hp

/-- C6: at `s = "a→b"` with every rune but a lowercase ASCII letter separating, the code
returns `["a", "→", "\x86\x92b"]`; its third element starts inside the separator, is not
the string of a separator of `s`, and ranges as U+FFFD, U+FFFD, `b`, two of which satisfy
`isSeparator`: the pieces are not classified as the claim says. -/
theorem SplitString_arrow_not_classified :
    SplitString arrowString notLowercase
      = [[0x61], [0xE2, 0x86, 0x92], [0x86, 0x92, 0x62]] ∧
    runes [0x86, 0x92, 0x62] = [0xFFFD, 0xFFFD, 0x62] ∧
    ¬ Classified arrowString notLowercase := by
  refine ⟨by decide, by decide, ?_⟩
  intro h
  obtain ⟨_, h1 | h2⟩ := h [0x86, 0x92, 0x62] (by decide)
  · obtain ⟨c, hc, _, hp⟩ := h1
    have hr : runes arrowString = [0x61, 0x2192, 0x62] := by decide
    rw [hr] at hc
    simp at hc
    rcases hc with rfl | rfl | rfl <;> revert hp <;> decide
  · have := h2.2 0xFFFD (by decide)
    revert this
    decide

/-- C10: at `s = "é"` (bytes `C3 A9`) with U+00E9 separating, the code returns
`["é", "\xa9"]`, whose concatenation `C3 A9 A9` is not `s`: the second byte of the
separator is emitted twice. -/
theorem SplitString_eacute_not_lossless :
    SplitString eAcuteString isEAcute = [[0xC3, 0xA9], [0xA9]] ∧
    concatAll (SplitString eAcuteString isEAcute) = [0xC3, 0xA9, 0xA9] ∧
    concatAll (SplitString eAcuteString isEAcute) ≠ eAcuteString := by
  decide

/-! ## Theorems: utils/hex.go -/

set_option maxRecDepth 100000 in
theorem hex_digits_of_byte (v : Byte) :
    fromHexChar (hextable.getD (v.val >>> 4) 0) = some (v.val >>> 4) ∧
    fromHexChar (hextable.getD (v.val &&& 0x0f) 0) = some (v.val &&& 0x0f) ∧
    toByte (((v.val >>> 4) <<< 4) ||| (v.val &&& 0x0f)) = v := by
  revert v
  decide

theorem hexDecode_hexEncode (b : List Byte) : hexDecode (hexEncode b) = (b, none) := by
  induction b with
  | nil => rfl
  | cons v src ih =>
    obtain ⟨h1, h2, h3⟩ := hex_digits_of_byte v
    simp only [hexEncode, hexDecode, h1, h2, h3, ih]

theorem hexEncode_length (b : List Byte) : (hexEncode b).length = 2 * b.length := by
  induction b with
  | nil => rfl
  | cons v src ih => simp only [hexEncode, List.length_cons, ih]; omega

/-- C7: for every byte slice `b`, the empty one included, `DecodeHex(EncodeHex(b))` is `b`
with a nil error, and `EncodeHex(b)` is `2*len(b)` bytes long. -/
theorem hex_round_trip (b : List Byte) :
    DecodeHex (EncodeHex b) = (b, none) ∧ (EncodeHex b).length = 2 * b.length :=
  ⟨hexDecode_hexEncode b, hexEncode_length b⟩

/-! ## Theorems: compiler and resource limits -/

/-- C8: `and_v(v:key-check(K1), key-check(K2))` compiles to
`[push K1, CHECKSIGVERIFY, push K2, CHECKSIG]`: the `v` wrapper over the CHECKSIG-terminated
child is collapsed, it is not CHECKSIG followed by VERIFY. -/
theorem compile_and_v_verify_collapsed (K1 K2 : Key) :
    compile (Fragment.andV (Fragment.wrapV (Fragment.keyCheck K1)) (Fragment.keyCheck K2))
      = some [Op.push K1, Op.CHECKSIGVERIFY, Op.push K2, Op.CHECKSIG] ∧
    compile (Fragment.andV (Fragment.wrapV (Fragment.keyCheck K1)) (Fragment.keyCheck K2))
      ≠ some [Op.push K1, Op.CHECKSIG, Op.VERIFY, Op.push K2, Op.CHECKSIG] := by
  have h : compile
      (Fragment.andV (Fragment.wrapV (Fragment.keyCheck K1)) (Fragment.keyCheck K2))
      = some [Op.push K1, Op.CHECKSIGVERIFY, Op.push K2, Op.CHECKSIG] := rfl
  refine ⟨h, ?_⟩
  rw [h]
  simp

/-- C9: for every `k`, a multisig of 21 keys is rejected with `TooManyMultisigKeys`, and
a multisig of `n` keys with `1 <= k <= n <= 20` passes the multisig gate. -/
theorem multisig_key_gate (k : Nat) (keys : List Key) :
    (keys.length = 21 →
      checkMultisigKeys (Fragment.multisig k keys)
        = Except.error LimitError.TooManyMultisigKeys) ∧
    (1 ≤ k → k ≤ keys.length → keys.length ≤ 20 →
      checkMultisigKeys (Fragment.multisig k keys) = Except.ok ()) := by
  constructor
  · intro h
    simp [checkMultisigKeys, exceedsMultisigKeys, multisigMaxKeys, h]
  · intro _ _ h
    have : ¬ (20 < keys.length) := by omega
    simp [checkMultisigKeys, exceedsMultisigKeys, multisigMaxKeys, this]

/-- Witness for C9: 2-of-21 is rejected, 2-of-3 passes. -/
theorem multisig_key_gate_witness :
    checkMultisigKeys (Fragment.multisig 2 (List.replicate 21 (List.replicate 33 2)))
      = Except.error LimitError.TooManyMultisigKeys ∧
    checkMultisigKeys (Fragment.multisig 2 (List.replicate 3 (List.replicate 33 2)))
      = Except.ok () :=
  ⟨(multisig_key_gate 2 (List.replicate 21 (List.replicate 33 2))).1 (by decide),
    (multisig_key_gate 2 (List.replicate 3 (List.replicate 33 2))).2
      (by decide) (by decide) (by decide)⟩

/-- In the range loop of `SplitString`, started at a rune boundary, every piece appended
without a separator right before it is followed by one: of two adjacent pieces one is a
separator piece, and the last piece collected is a separator piece. -/
theorem SplitString.loop_adjacent (s : GoString) (isSeparator : Rune → Bool)
    (fuel i start : Nat) (substrs : List GoString) (hi : i ≤ s.length)
    (hA : Aligned (s.take i) (s.drop i))
    (hch : List.Chain' (fun p q =>
      IsSeparatorPiece s isSeparator p ∨ IsSeparatorPiece s isSeparator q) substrs)
    (hlast : ∀ x ∈ substrs.getLast?, IsSeparatorPiece s isSeparator x) :
    List.Chain' (fun p q =>
        IsSeparatorPiece s isSeparator p ∨ IsSeparatorPiece s isSeparator q)
      (SplitString.loop s isSeparator fuel i start substrs).2 ∧
    ∀ x ∈ (SplitString.loop s isSeparator fuel i start substrs).2.getLast?,
      IsSeparatorPiece s isSeparator x := by
  induction fuel generalizing i start substrs with
  | zero => exact ⟨hch, hlast⟩
  | succ n ih =>
    simp only [SplitString.loop]
    split
    · rename_i hlt
      obtain ⟨_, hbound, hmem, _, hext⟩ := rune_at_boundary s i hlt hA
      have hA' := hext _ hA
      rw [take_append_slice s i _ (Nat.le_add_right _ _)] at hA'
      split
      · rename_i hc
        have hsepc : IsSeparatorPiece s isSeparator (encoderune (decoderune (s.drop i)).1) :=
          ⟨_, hmem, hc, rfl⟩
        apply ih _ _ _ hbound hA'
        · split
          · refine List.Chain'.append ?_ (List.chain'_singleton _) ?_
            · refine List.Chain'.append hch (List.chain'_singleton _) ?_
              intro x hx y _
              exact Or.inl (hlast x hx)
            · intro x _ y hy
              simp only [List.head?_cons, Option.mem_def, Option.some.injEq] at hy
              subst hy
              exact Or.inr hsepc
          · refine List.Chain'.append hch (List.chain'_singleton _) ?_
            intro x _ y hy
            simp only [List.head?_cons, Option.mem_def, Option.some.injEq] at hy
            subst hy
            exact Or.inr hsepc
        · intro x hx
          rw [List.getLast?_concat] at hx
          simp only [Option.mem_def, Option.some.injEq] at hx
          subst hx
          exact hsepc
      · exact ih _ _ _ hbound hA' hch hlast
    · exact ⟨hch, hlast⟩

/-- When no character of `s` separates, the range loop of `SplitString`, started at a rune
boundary, changes neither `start` nor `substrs`. -/
theorem SplitString.loop_no_separator (s : GoString) (isSeparator : Rune → Bool)
    (hno : ∀ c ∈ runes s, isSeparator c = false)
    (fuel i start : Nat) (substrs : List GoString) (hi : i ≤ s.length)
    (hA : Aligned (s.take i) (s.drop i)) :
    SplitString.loop s isSeparator fuel i start substrs = (start, substrs) := by
  induction fuel generalizing i with
  | zero => rfl
  | succ n ih =>
    simp only [SplitString.loop]
    split
    · rename_i hlt
      obtain ⟨_, hbound, hmem, _, hext⟩ := rune_at_boundary s i hlt hA
      have hA' := hext _ hA
      rw [take_append_slice s i _ (Nat.le_add_right _ _)] at hA'
      rw [hno _ hmem]
      simp only [Bool.false_eq_true, if_false]
      exact ih _ hbound hA'
    · rfl

theorem SplitString.adjacent (s : GoString) (isSeparator : Rune → Bool) :
    List.Chain' (fun p q =>
        IsSeparatorPiece s isSeparator p ∨ IsSeparatorPiece s isSeparator q)
      (SplitString s isSeparator) := by
  obtain ⟨h1, h2⟩ := SplitString.loop_adjacent s isSeparator s.length 0 0 []
    (Nat.zero_le _) (by rw [List.take_zero]; exact Aligned.nil _) List.chain'_nil
    (by intro x hx; cases hx)
  unfold SplitString
  simp only
  split
  · refine List.Chain'.append h1 (List.chain'_singleton _) ?_
    intro x hx y _
    exact Or.inl (h2 x hx)
  · exact h1

theorem slice_full (s : GoString) : slice s 0 s.length = s := by
  simp [slice]

/-- C11: of two adjacent elements of `SplitString(s, isSeparator)` one is a separator
piece (they are never both non-separator pieces); and when no character of `s` satisfies
`isSeparator` the result is `[s]` for a non-empty `s` and empty for the empty string. -/
theorem SplitString_maximal (s : GoString) (isSeparator : Rune → Bool) :
    (∀ (before after : List GoString) (p q : GoString),
      SplitString s isSeparator = before ++ p :: q :: after →
      ¬ (¬ IsSeparatorPiece s isSeparator p ∧ ¬ IsSeparatorPiece s isSeparator q)) ∧
    ((∀ c ∈ runes s, isSeparator c = false) →
      (s ≠ [] → SplitString s isSeparator = [s]) ∧
      (s = [] → SplitString s isSeparator = [])) := by
  constructor
  · intro before after p q heq hnot
    have h := SplitString.adjacent s isSeparator
    rw [heq] at h
    rcases (List.chain'_append_cons_cons.mp h).2.1 with hp | hq
    · exact hnot.1 hp
    · exact hnot.2 hq
  · intro hno
    have hl := SplitString.loop_no_separator s isSeparator hno s.length 0 0 []
      (Nat.zero_le _) (by rw [List.take_zero]; exact Aligned.nil _)
    constructor
    · intro hne
      have hpos : 0 < s.length := List.length_pos.mpr hne
      unfold SplitString
      simp only [hl, hpos, if_true, List.nil_append, slice_full]
    · intro he
      subst he
      rfl

/-- Witness for C11: `a(b` splits into `a`, `(`, `b` with `(` separating, and the first
two pieces are not both non-separator pieces; `ab` has no separator and stays whole. -/
theorem SplitString_maximal_witness :
    ¬ (¬ IsSeparatorPiece [0x61, 0x28, 0x62] (fun c => c == 0x28) [0x61] ∧
        ¬ IsSeparatorPiece [0x61, 0x28, 0x62] (fun c => c == 0x28) [0x28]) ∧
    SplitString [0x61, 0x62] (fun c => c == 0x28) = [[0x61, 0x62]] :=
  ⟨(SplitString_maximal [0x61, 0x28, 0x62] (fun c => c == 0x28)).1
      [] [[0x62]] [0x61] [0x28] (by decide),
    ((SplitString_maximal [0x61, 0x62] (fun c => c == 0x28)).2 (by decide)).1 (by decide)⟩

/-! ## Theorems: the empty stack -/

theorem Stack.popN_length {T : Type} [Inhabited T] (n : Nat) (s : Stack T) :
    (Stack.popN n s).2.elements.length = s.elements.length - n := by
  induction n generalizing s with
  | zero => simp [Stack.popN]
  | succ k ih =>
    simp only [Stack.popN]
    rw [ih]
    unfold Stack.Pop
    split
    · rename_i h
      simp only [h]
      omega
    · simp only [List.length_take]
      omega

theorem Stack.popN_empty {T : Type} [Inhabited T] (n : Nat) (s : Stack T)
    (h : s.elements = []) : Stack.popN n s = (List.replicate n default, s) := by
  induction n with
  | zero => rfl
  | succ k ih =>
    have hp : s.Pop = (default, s) := by simp [Stack.Pop, h]
    simp only [Stack.popN, hp, ih, List.replicate_succ]

/-- C12: on an empty stack `Pop` and `Top` return the zero value and leave the stack empty
with `Size() = 0`, however often they are called; and after `n` pops of any stack `Size`
is the former size minus `n`, stopping at 0, never negative. -/
theorem Stack.empty_pop_top {T : Type} [Inhabited T] (s t : Stack T) (n : Nat) :
    (s.elements = [] →
      s.Pop = (default, s) ∧ s.Top = (default, s) ∧
      s.Pop.2.Size = 0 ∧ s.Top.2.Size = 0 ∧
      Stack.popN n s = (List.replicate n default, s)) ∧
    (Stack.popN n t).2.Size = ((t.elements.length - n : Nat) : Int) ∧
    0 ≤ (Stack.popN n t).2.Size := by
  refine ⟨?_, ?_, ?_⟩
  · intro h
    have hp : s.Pop = (default, s) := by simp [Stack.Pop, h]
    have ht : s.Top = (default, s) := by simp [Stack.Top, h]
    refine ⟨hp, ht, ?_, ?_, Stack.popN_empty n s h⟩
    · rw [hp]
      simp [Stack.Size, h]
    · rw [ht]
      simp [Stack.Size, h]
  · simp only [Stack.Size, Stack.popN_length]
  · simp only [Stack.Size]
    exact Int.ofNat_nonneg _

/-- Witness for C12 on the zero-value stack of integers, popped three times. -/
theorem Stack.empty_pop_top_witness :
    (Stack.zeroValue : Stack Int).Pop = (0, Stack.zeroValue) ∧
    (Stack.zeroValue : Stack Int).Top = (0, Stack.zeroValue) ∧
    (Stack.zeroValue : Stack Int).Pop.2.Size = 0 ∧
    (Stack.zeroValue : Stack Int).Top.2.Size = 0 ∧
    Stack.popN 3 (Stack.zeroValue : Stack Int) = ([0, 0, 0], Stack.zeroValue) :=
  (Stack.empty_pop_top (Stack.zeroValue : Stack Int) Stack.zeroValue 3).1 rfl

/-! ## Theorems: properties and identifiers of types.go -/

theorem properties.String_eq_select (p : properties) :
    p.String.toList = selectLetters "zondumsfe".toList p.flags := by
  rcases p with ⟨z, o, n, d, u, m, s, f, e, c⟩
  cases z <;> cases o <;> cases n <;> cases d <;> cases u <;> cases m <;> cases s <;>
    cases f <;> cases e <;> rfl

theorem selectLetters_sublist (cs : List Char) (bs : List Bool) :
    List.Sublist (selectLetters cs bs) cs := by
  induction cs generalizing bs with
  | nil => cases bs <;> simp [selectLetters]
  | cons c cs ih =>
    cases bs with
    | nil => simp [selectLetters]
    | cons b bs =>
      cases b
      · simpa [selectLetters] using (ih bs).cons c
      · simpa [selectLetters] using (ih bs).cons₂ c

theorem selectLetters_length (cs : List Char) (bs : List Bool) (h : bs.length ≤ cs.length) :
    (selectLetters cs bs).length = bs.count true := by
  induction cs generalizing bs with
  | nil =>
    have : bs = [] := List.length_eq_zero.mp (Nat.le_zero.mp h)
    subst this
    rfl
  | cons c cs ih =>
    cases bs with
    | nil => rfl
    | cons b bs =>
      have h' : bs.length ≤ cs.length := by simpa using h
      cases b <;> simp [selectLetters, ih bs h']

/-- C13: `p.String()` is the subsequence of `"zondumsfe"` made of the letters whose flag is
set; its length is the number of the nine flags that are set, and it is `""` when none
is set. -/
theorem properties.String_renders_flags (p : properties) :
    p.String.toList = selectLetters "zondumsfe".toList p.flags ∧
    List.Sublist p.String.toList "zondumsfe".toList ∧
    p.String.length = p.flags.count true ∧
    (p.flags = [false, false, false, false, false, false, false, false, false] →
      p.String = "") := by
  have hsel := properties.String_eq_select p
  refine ⟨hsel, ?_, ?_, ?_⟩
  · rw [hsel]
    exact selectLetters_sublist _ _
  · show p.String.toList.length = _
    rw [hsel]
    exact selectLetters_length _ _ (by simp [properties.flags])
  · intro h
    apply String.ext
    show p.String.toList = "".toList
    rw [hsel, h]
    rfl

/-- Witness for C13: no flag set, `canCollapseVerify` set. -/
theorem properties.String_renders_flags_witness :
    (properties.mk false false false false false false false false false true).String = "" :=
  (properties.String_renders_flags
    (properties.mk false false false false false false false false false true)).2.2.2 rfl

theorem properties.flags_of_String (p : properties) :
    p.flags = "zondumsfe".toList.map (fun l => decide (l ∈ p.String.toList)) := by
  rcases p with ⟨z, o, n, d, u, m, s, f, e, c⟩
  cases z <;> cases o <;> cases n <;> cases d <;> cases u <;> cases m <;> cases s <;>
    cases f <;> cases e <;> rfl

/-- C14: `p.String() = q.String()` exactly when `p` and `q` agree on each of
`z, o, n, d, u, m, s, f, e`; changing `canCollapseVerify` never changes the output. -/
theorem properties.String_identifies_flags (p q : properties) (c : Bool) :
    (p.String = q.String ↔
      (p.z = q.z ∧ p.o = q.o ∧ p.n = q.n ∧ p.d = q.d ∧ p.u = q.u ∧ p.m = q.m ∧
        p.s = q.s ∧ p.f = q.f ∧ p.e = q.e)) ∧
    (properties.mk p.z p.o p.n p.d p.u p.m p.s p.f p.e c).String = p.String := by
  refine ⟨⟨?_, ?_⟩, rfl⟩
  · intro h
    have hf : p.flags = q.flags := by
      rw [properties.flags_of_String p, properties.flags_of_String q, h]
    simpa [properties.flags] using hf
  · rintro ⟨hz, ho, hn, hd, hu, hm, hs, hf, he⟩
    simp only [properties.String, hz, ho, hn, hd, hu, hm, hs, hf, he]

/-- Witness for C14: two values that differ in `canCollapseVerify` only. -/
theorem properties.String_identifies_flags_witness :
    (properties.mk true false true false false true false false true true).String
      = (properties.mk true false true false false true false false true false).String :=
  (properties.String_identifies_flags
    (properties.mk true false true false false true false false true true)
    (properties.mk true false true false false true false false true false) false).1.2
    ⟨rfl, rfl, rfl, rfl, rfl, rfl, rfl, rfl, rfl⟩

/-- C15: the 32 fragment identifiers `f_0 .. f_wrap_u` are pairwise distinct, and the
wrapper identifiers are exactly the one-character strings `a, s, c, d, v, j, n, t, l, u`. -/
theorem fragment_identifiers_distinct :
    fragmentIdentifiers.length = 32 ∧ fragmentIdentifiers.Nodup ∧
    wrapperIdentifiers = ["a", "s", "c", "d", "v", "j", "n", "t", "l", "u"] ∧
    wrapperIdentifiers.map String.length = [1, 1, 1, 1, 1, 1, 1, 1, 1, 1] := by
  refine ⟨by decide, by decide, by decide, by decide⟩

/-- C16: `typeB`, `typeV`, `typeK`, `typeW` are the pairwise distinct values
`"B"`, `"V"`, `"K"`, `"W"`, so a `basicType` equal to one of them is equal to none of the
other three. -/
theorem basic_types_exclusive (t : basicType) :
    (typeB = "B" ∧ typeV = "V" ∧ typeK = "K" ∧ typeW = "W") ∧
    [typeB, typeV, typeK, typeW].Nodup ∧
    (t = typeB → t ≠ typeV ∧ t ≠ typeK ∧ t ≠ typeW) ∧
    (t = typeV → t ≠ typeB ∧ t ≠ typeK ∧ t ≠ typeW) ∧
    (t = typeK → t ≠ typeB ∧ t ≠ typeV ∧ t ≠ typeW) ∧
    (t = typeW → t ≠ typeB ∧ t ≠ typeV ∧ t ≠ typeK) := by
  refine ⟨⟨rfl, rfl, rfl, rfl⟩, by decide, ?_, ?_, ?_, ?_⟩ <;>
    (intro h; subst h; decide)

/-- Witness for C16 at the basic type `"B"`. -/
theorem basic_types_exclusive_witness :
    ("B" : basicType) ≠ typeV ∧ ("B" : basicType) ≠ typeK ∧ ("B" : basicType) ≠ typeW :=
  (basic_types_exclusive "B").2.2.1 rfl

end Miniscript
